import Mathlib

/-
Shallow embedding of Katsumi-N/search_algorithm_zissen_rust.

Source files modelled here:
  * src/search_algorithm/src/main.rs  — the single-player maze game
    (MazeState), greedy_action and beam_search_action (namespace SearchAlgo);
  * src/src/bin/hillclimb.rs          — the auto-move multi-agent variant
    (AutoMoveMazeState) and hill_climb (namespace SearchAlgo.AutoMaze).

Machine integers: usize fields hold small non-negative values and are
modelled as Nat; isize fields (coordinates, best_score, first_action,
best_point) are modelled as Int.  The single `as usize` cast applied to a
returned isize action is modelled by usizeOfInt, i.e. reduction mod 2^64.
Fixed-size arrays [[usize; W]; H] are modelled as List (List Nat) together
with the well-formedness predicate boardWF fixing the dimensions.
Rust's BinaryHeap is modelled by its multiset of elements: push conses,
pop removes a maximal element under the element order.  For MazeState the
element order is the one the code actually has: the #[derive(Ord)]
lexicographic comparison of all fields in declaration order, reproduced
below as MazeState.cmp.  Since that order is total and two cmp-equal
states are field-wise equal, the popped value is independent of the
heap's internal layout, so the list model is observationally faithful.
A .pop().unwrap() on a possibly-empty heap is modelled by Option: a
`none` result marks the panic.
-/

namespace SearchAlgo

-- Constants from src/search_algorithm/src/main.rs lines 4-8.
def H : Nat := 30

def W : Nat := 30

def END_TURN : Nat := 100

def DX : List Int := [1, -1, 0, 0]

def DY : List Int := [0, 0, 1, -1]

-- struct Coord (main.rs lines 11-15); fields in declaration order y, x.
structure Coord where
  y : Int
  x : Int
deriving DecidableEq

-- Board cell access: points[y as usize][x as usize].  Out-of-range access
-- panics in Rust; every access below is made under bounds hypotheses, so
-- the getD defaults are never exercised in the faithful domain.
def getCellN (b : List (List Nat)) (i j : Nat) : Nat :=
  (b.getD i []).getD j 0

def setCellN (b : List (List Nat)) (i j : Nat) (v : Nat) : List (List Nat) :=
  b.set i ((b.getD i []).set j v)

def getCell (b : List (List Nat)) (y x : Int) : Nat :=
  getCellN b y.toNat x.toNat

def setCell (b : List (List Nat)) (y x : Int) (v : Nat) : List (List Nat) :=
  setCellN b y.toNat x.toNat v

-- The invariant carried by the Rust type [[usize; W]; H].
def boardWF (b : List (List Nat)) : Prop :=
  b.length = H ∧ ∀ r ∈ b, r.length = W

instance (b : List (List Nat)) : Decidable (boardWF b) := by
  unfold boardWF; infer_instance

-- In-bounds test as written in legal_actions (main.rs line 83):
-- ty >= 0 && ty < H as isize && tx >= 0 && tx < W as isize.
def inBounds (y x : Int) : Prop :=
  0 ≤ y ∧ y < (H : Int) ∧ 0 ≤ x ∧ x < (W : Int)

instance (y x : Int) : Decidable (inBounds y x) := by
  unfold inBounds; infer_instance

def onBoard (c : Coord) : Prop := inBounds c.y c.x

instance (c : Coord) : Decidable (onBoard c) := by
  unfold onBoard; infer_instance

-- struct MazeState (main.rs lines 27-35); fields in declaration order.
structure MazeState where
  points : List (List Nat)
  turn : Nat
  character : Coord
  game_score : Nat
  evaluated_score : Nat
  first_action : Int
deriving DecidableEq

-- is_done (main.rs lines 61-63).
def MazeState.is_done (s : MazeState) : Bool :=
  s.turn == END_TURN

-- advance (main.rs lines 66-75): move the character, collect the
-- destination cell when it is positive, bump the turn counter.
def MazeState.advance (s : MazeState) (action : Nat) : MazeState :=
  let x := s.character.x + DX.getD action 0
  let y := s.character.y + DY.getD action 0
  let point := getCell s.points y x
  { s with
    character := ⟨y, x⟩
    points := if 0 < point then setCell s.points y x 0 else s.points
    game_score := if 0 < point then s.game_score + point else s.game_score
    turn := s.turn + 1 }

-- legal_actions (main.rs lines 78-88): all of 0..4 whose target stays on
-- the board, in increasing order.
def MazeState.legal_actions (s : MazeState) : List Nat :=
  (List.range 4).filter fun action =>
    decide (inBounds (s.character.y + DY.getD action 0)
                     (s.character.x + DX.getD action 0))

-- evaluate_score (main.rs lines 110-112).
def MazeState.evaluate_score (s : MazeState) : MazeState :=
  { s with evaluated_score := s.game_score }

-- The #[derive(Ord)] comparison on Coord: lexicographic on (y, x).
def Coord.cmp (a b : Coord) : Ordering :=
  (compare a.y b.y).then (compare a.x b.x)

-- The #[derive(Ord)] comparison on fixed-size arrays: element-wise
-- lexicographic (the arrays always have equal length).
def cmpRow : List Nat → List Nat → Ordering
  | [], [] => Ordering.eq
  | [], _ :: _ => Ordering.lt
  | _ :: _, [] => Ordering.gt
  | a :: xs, b :: ys => (compare a b).then (cmpRow xs ys)

def cmpBoard : List (List Nat) → List (List Nat) → Ordering
  | [], [] => Ordering.eq
  | [], _ :: _ => Ordering.lt
  | _ :: _, [] => Ordering.gt
  | r :: xs, q :: ys => (cmpRow r q).then (cmpBoard xs ys)

-- The #[derive(Ord)] comparison on MazeState (main.rs line 27):
-- lexicographic over the fields in declaration order, so the points
-- array is compared FIRST and evaluated_score only fifth.
def MazeState.cmp (a b : MazeState) : Ordering :=
  (cmpBoard a.points b.points).then <|
    (compare a.turn b.turn).then <|
      (a.character.cmp b.character).then <|
        (compare a.game_score b.game_score).then <|
          (compare a.evaluated_score b.evaluated_score).then
            (compare a.first_action b.first_action)

-- BinaryHeap<MazeState>, modelled by its multiset of elements.
structure BinaryHeap where
  elems : List MazeState
deriving DecidableEq

def BinaryHeap.push (h : BinaryHeap) (s : MazeState) : BinaryHeap :=
  ⟨s :: h.elems⟩

def BinaryHeap.pushList (h : BinaryHeap) (l : List MazeState) : BinaryHeap :=
  l.foldl BinaryHeap.push h

-- The greatest element of s :: rest under MazeState.cmp.
def heapMax (m : MazeState) : List MazeState → MazeState
  | [] => m
  | s :: rest => heapMax (if MazeState.cmp m s = Ordering.lt then s else m) rest

-- pop(): remove and return a greatest element; none on an empty heap
-- (the .unwrap() panic site).
def BinaryHeap.pop (h : BinaryHeap) : Option (MazeState × BinaryHeap) :=
  match h.elems with
  | [] => none
  | s :: rest =>
    let m := heapMax s rest
    some (m, ⟨(s :: rest).erase m⟩)

-- `isize as usize` on the returned action (main.rs lines 151, 170).
def usizeOfInt (i : Int) : Nat :=
  (i % (2 ^ 64 : Int)).toNat

-- One expansion of a popped state inside beam_search_action
-- (main.rs lines 132-141): clone, advance, evaluate, tag first_action
-- at depth level t == 0, in legal-action order.
def expandState (t : Nat) (now_state : MazeState) : List MazeState :=
  now_state.legal_actions.map fun action =>
    let next1 := (now_state.advance action).evaluate_score
    if t = 0 then { next1 with first_action := (action : Int) } else next1

-- The inner width loop of beam_search_action (main.rs lines 127-142),
-- instrumented: besides the next-level heap it also returns, as ghost
-- data, the list of states popped for expansion (in pop order).  The
-- code's behaviour is the first projection.
def beamLevelTrace : Nat → Nat → BinaryHeap → BinaryHeap →
    BinaryHeap × List MazeState
  | _, 0, _, next_beam => (next_beam, [])
  | t, wleft + 1, now_beam, next_beam =>
    match now_beam.pop with
    | none => (next_beam, [])
    | some (now_state, now_rest) =>
      let r := beamLevelTrace t wleft now_rest
        (next_beam.pushList (expandState t now_state))
      (r.1, now_state :: r.2)

-- The outer depth loop of beam_search_action (main.rs lines 125-150),
-- instrumented with the per-level expansion traces.  After each level
-- the code POPS the maximum of the new heap into best_state (line 145:
-- best_state = now_beam.pop().unwrap()) — the popped state is gone from
-- the frontier — and breaks early when that state is done.  A `none`
-- first component marks the unwrap panic on an empty heap.
def beamRecTrace : Nat → Nat → Nat → BinaryHeap → MazeState →
    Option MazeState × List (List MazeState)
  | 0, _, _, _, best_state => (some best_state, [])
  | dleft + 1, beam_width, t, now_beam, _ =>
    let lv := beamLevelTrace t beam_width now_beam ⟨[]⟩
    match lv.1.pop with
    | none => (none, [lv.2])
    | some (b, rest) =>
      if b.is_done then (some b, [lv.2])
      else
        let r := beamRecTrace dleft beam_width (t + 1) rest b
        (r.1, lv.2 :: r.2)

-- beam_search_action (main.rs lines 119-152).
def beam_search_action (state : MazeState) (beam_width beam_depth : Nat) :
    Option Nat :=
  ((beamRecTrace beam_depth beam_width 0 ⟨[state]⟩ state).1).map
    fun b => usizeOfInt b.first_action

-- The ghost per-level expansion traces of the same run.
def beam_search_expanded (state : MazeState) (beam_width beam_depth : Nat) :
    List (List MazeState) :=
  (beamRecTrace beam_depth beam_width 0 ⟨[state]⟩ state).2

-- The loop body of greedy_action (main.rs lines 160-168): keep the
-- action whose evaluated successor score strictly exceeds the best so
-- far (comparison `now_state.evaluated_score as isize > best_score`).
def greedyLoop (s : MazeState) : List Nat → Int → Int → Int
  | [], _, best_act => best_act
  | action :: rest, best_score, best_act =>
    let now_state := (s.advance action).evaluate_score
    if best_score < (now_state.evaluated_score : Int) then
      greedyLoop s rest (now_state.evaluated_score : Int) (action : Int)
    else
      greedyLoop s rest best_score best_act

-- greedy_action (main.rs lines 155-171).
def greedy_action (state : MazeState) : Nat :=
  usizeOfInt (greedyLoop state state.legal_actions (-1) (-1))

-- Evaluated score of the successor reached by one action (the quantity
-- greedy_action and the spec compare).
def succScore (s : MazeState) (a : Nat) : Nat :=
  ((s.advance a).evaluate_score).evaluated_score

-- Concrete states used by the counterexample and witness theorems.
-- csBoard: the 30×30 board that is zero everywhere except a 5 at (0, 1).
def zeroRow : List Nat := List.replicate W 0

def zeroBoard : List (List Nat) := List.replicate H zeroRow

def csBoard : List (List Nat) := zeroBoard.set 0 (zeroRow.set 1 5)

-- cs: character at (0, 0), turn 0, one collectible 5 to its right.
def cs : MazeState := ⟨csBoard, 0, ⟨0, 0⟩, 0, 0, -1⟩

-- The two successors beam_search_action pushes when expanding cs:
-- cS0 moves right (action 0) and collects the 5; cS2 moves down
-- (action 2) and collects nothing, leaving the 5 on its board.
def cS0 : MazeState := ⟨zeroBoard, 1, ⟨0, 1⟩, 5, 5, 0⟩

def cS2 : MazeState := ⟨csBoard, 1, ⟨1, 0⟩, 0, 0, 2⟩

-- Iterated advance along a list of actions, and the total value
-- collected along that path (the destination cell's value at the moment
-- of each step).
def advancePath (s : MazeState) : List Nat → MazeState
  | [] => s
  | a :: rest => advancePath (s.advance a) rest

def collectedPath (s : MazeState) : List Nat → Nat
  | [] => 0
  | a :: rest =>
    getCell s.points (s.character.y + DY.getD a 0)
      (s.character.x + DX.getD a 0) + collectedPath (s.advance a) rest

-- The position reached from c by action a.
def movedPos (c : Coord) (a : Nat) : Coord :=
  ⟨c.y + DY.getD a 0, c.x + DX.getD a 0⟩

/-
Namespace AutoMaze: src/src/bin/hillclimb.rs.  The file re-declares the
same H, W, END_TURN, DX, DY (lines 4-9, identical values), so those and
the board helpers are shared from the enclosing namespace.  CHARACTER_N
is 3 (line 6).  Randomness (thread_rng in transition/init, lines
163-176) is external input; it is modelled as an oracle: hill_climb
receives the list of per-iteration gen_range outputs (the character
index, already in 0..CHARACTER_N as gen_range(0..CHARACTER_N)
guarantees, and the two raw draws that the code reduces mod W and mod H),
and the initial state s0 stands for the state after init() has placed
the characters.  The while-loop in get_score is modelled with fuel
END_TURN - turn, which matches the Rust loop whenever turn ≤ END_TURN
(for turn > END_TURN the Rust loop never terminates).
-/



namespace AutoMaze

def CHARACTER_N : Nat := 3

-- struct AutoMoveMazeState (hillclimb.rs lines 29-35).
structure AutoMoveMazeState where
  points : List (List Nat)
  turn : Nat
  characters : List Coord
  game_score : Nat
  evaluated_score : Nat
deriving DecidableEq

-- Loop body of move_player (hillclimb.rs lines 83-93): scan actions
-- 0..4, keep the first in-bounds target with the strictly greatest cell
-- value (best_point starts at -100000000, best_action_index at 0).
def movePlayerStep (pts : List (List Nat)) (c : Coord)
    (acc : Int × Nat) (action : Nat) : Int × Nat :=
  let ty := c.y + DY.getD action 0
  let tx := c.x + DX.getD action 0
  if inBounds ty tx then
    let point := getCell pts ty tx
    if acc.1 < (point : Int) then ((point : Int), action) else acc
  else acc

-- move_player (hillclimb.rs lines 79-98).
def AutoMoveMazeState.move_player (s : AutoMoveMazeState)
    (character_id : Nat) : AutoMoveMazeState :=
  let c := s.characters.getD character_id ⟨0, 0⟩
  let best := (List.range 4).foldl (movePlayerStep s.points c) (-100000000, 0)
  let moved : Coord := ⟨c.y + DY.getD best.2 0, c.x + DX.getD best.2 0⟩
  { s with characters := s.characters.set character_id moved }

-- First phase of advance (hillclimb.rs lines 107-109): every character
-- moves; the board is untouched during this phase.
def movePhase (s : AutoMoveMazeState) : AutoMoveMazeState :=
  (List.range CHARACTER_N).foldl AutoMoveMazeState.move_player s

-- Second phase of advance (hillclimb.rs lines 110-114): in character
-- order, add the cell under the character to game_score and zero it.
def collectLoop : List Coord → List (List Nat) × Nat → List (List Nat) × Nat
  | [], acc => acc
  | c :: rest, acc =>
    collectLoop rest (setCell acc.1 c.y c.x 0, acc.2 + getCell acc.1 c.y c.x)

-- advance (hillclimb.rs lines 106-116).
def AutoMoveMazeState.advance (s : AutoMoveMazeState) : AutoMoveMazeState :=
  let moved := movePhase s
  let collected :=
    collectLoop moved.characters (moved.points, moved.game_score)
  { moved with points := collected.1
               game_score := collected.2
               turn := moved.turn + 1 }

-- is_done (hillclimb.rs lines 101-103).
def AutoMoveMazeState.is_done (s : AutoMoveMazeState) : Bool :=
  s.turn == END_TURN

-- The pre-playout clearing in get_score (hillclimb.rs lines 120-123):
-- zero the cell under every character.
def zeroUnderCharacters (chars : List Coord) (pts : List (List Nat)) :
    List (List Nat) :=
  chars.foldl (fun b c => setCell b c.y c.x 0) pts

-- The while !is_done loop of get_score, with fuel.
def runToEnd : Nat → AutoMoveMazeState → AutoMoveMazeState
  | 0, s => s
  | fuel + 1, s => if s.is_done then s else runToEnd fuel s.advance

-- get_score (hillclimb.rs lines 118-131), is_print = false.
def AutoMoveMazeState.get_score (s : AutoMoveMazeState) : Nat :=
  let tmp := { s with points := zeroUnderCharacters s.characters s.points }
  (runToEnd (END_TURN - s.turn) tmp).game_score

-- transition (hillclimb.rs lines 163-168): relocate one randomly chosen
-- character; rx and ry are the raw gen_range(0..100000) draws, reduced
-- mod W and mod H exactly as the source does.
def AutoMoveMazeState.transition (s : AutoMoveMazeState)
    (id : Fin CHARACTER_N) (rx ry : Nat) : AutoMoveMazeState :=
  let nc : Coord := ⟨((ry % H : Nat) : Int), ((rx % W : Nat) : Int)⟩
  { s with characters := s.characters.set id nc }

-- One iteration's random draws: character index, raw x draw, raw y draw.
abbrev Mut := Fin CHARACTER_N × Nat × Nat

-- The iteration loop of hill_climb (hillclimb.rs lines 191-199),
-- carrying (now_state, best_score).
def hillClimbAux : AutoMoveMazeState → Nat → List Mut →
    AutoMoveMazeState × Nat
  | now, best, [] => (now, best)
  | now, best, m :: rest =>
    let next := now.transition m.1 m.2.1 m.2.2
    let next_score := next.get_score
    if best < next_score then hillClimbAux next next_score rest
    else hillClimbAux now best rest

-- hill_climb (hillclimb.rs lines 187-201); s0 is the state after
-- init(), muts the oracle of the loop's random draws (so muts.length is
-- the iteration budget N).
def hill_climb (s0 : AutoMoveMazeState) (muts : List Mut) :
    AutoMoveMazeState :=
  (hillClimbAux s0 s0.get_score muts).1

-- Ghost data: the mutated candidate generated at each iteration.
def candidatesAux : AutoMoveMazeState → Nat → List Mut →
    List AutoMoveMazeState
  | _, _, [] => []
  | now, best, m :: rest =>
    let next := now.transition m.1 m.2.1 m.2.2
    let next_score := next.get_score
    next :: (if best < next_score then candidatesAux next next_score rest
             else candidatesAux now best rest)

def candidates (s0 : AutoMoveMazeState) (muts : List Mut) :
    List AutoMoveMazeState :=
  candidatesAux s0 s0.get_score muts

-- Invariant of the move_player action scan: the recorded best action's
-- target is in bounds and the recorded best point is non-negative.
def stepInv (c : Coord) (acc : Int × Nat) : Prop :=
  inBounds (c.y + DY.getD acc.2 0) (c.x + DX.getD acc.2 0) ∧ 0 ≤ acc.1

-- Concrete auto-move state for the C10 witness: three characters, two
-- of them sharing a cell, one turn before the horizon.
def caut : AutoMoveMazeState :=
  ⟨csBoard, 99, [⟨0, 0⟩, ⟨0, 0⟩, ⟨5, 5⟩], 0, 0⟩

end AutoMaze

-- On the 30×30 board, a character standing on the board always has a
-- legal move along the x axis (action 0 or 1) ...
lemma inBounds_right_or_left (c : Coord) (hb : onBoard c) :
    inBounds (c.y + DY.getD 0 0) (c.x + DX.getD 0 0) ∨
    inBounds (c.y + DY.getD 1 0) (c.x + DX.getD 1 0) := by
  unfold onBoard inBounds at *
  simp only [DY, DX, List.getD_cons_zero, List.getD_cons_succ, H, W] at *
  omega

-- ... and one along the y axis (action 2 or 3).
lemma inBounds_down_or_up (c : Coord) (hb : onBoard c) :
    inBounds (c.y + DY.getD 2 0) (c.x + DX.getD 2 0) ∨
    inBounds (c.y + DY.getD 3 0) (c.x + DX.getD 3 0) := by
  unfold onBoard inBounds at *
  simp only [DY, DX, List.getD_cons_zero, List.getD_cons_succ, H, W] at *
  omega

lemma mem_legal_of_inBounds (s : MazeState) (a : Nat) (ha : a < 4)
    (h : inBounds (s.character.y + DY.getD a 0)
                  (s.character.x + DX.getD a 0)) :
    a ∈ s.legal_actions :=
  List.mem_filter.mpr ⟨List.mem_range.mpr ha, decide_eq_true h⟩

lemma two_le_length_of_two_mem {α : Type} {l : List α} {a b : α}
    (ha : a ∈ l) (hb : b ∈ l) (hab : a ≠ b) : 2 ≤ l.length := by
  match l with
  | [] => simp at ha
  | [x] =>
    simp at ha hb
    exact absurd (ha.trans hb.symm) hab
  | x :: y :: t => simp

-- On the 30×30 board legal_actions always has at least two entries.
lemma legal_actions_two_le (s : MazeState) (hb : onBoard s.character) :
    2 ≤ s.legal_actions.length := by
  rcases inBounds_right_or_left s.character hb with h | h <;>
    rcases inBounds_down_or_up s.character hb with h' | h'
  · exact two_le_length_of_two_mem (mem_legal_of_inBounds s 0 (by omega) h)
      (mem_legal_of_inBounds s 2 (by omega) h') (by omega)
  · exact two_le_length_of_two_mem (mem_legal_of_inBounds s 0 (by omega) h)
      (mem_legal_of_inBounds s 3 (by omega) h') (by omega)
  · exact two_le_length_of_two_mem (mem_legal_of_inBounds s 1 (by omega) h)
      (mem_legal_of_inBounds s 2 (by omega) h') (by omega)
  · exact two_le_length_of_two_mem (mem_legal_of_inBounds s 1 (by omega) h)
      (mem_legal_of_inBounds s 3 (by omega) h') (by omega)

lemma legal_actions_ne_nil (s : MazeState) (hb : onBoard s.character) :
    s.legal_actions ≠ [] := by
  have h := legal_actions_two_le s hb
  intro hnil
  rw [hnil] at h
  simp at h

lemma inBounds_of_mem_legal {s : MazeState} {a : Nat}
    (ha : a ∈ s.legal_actions) :
    inBounds (s.character.y + DY.getD a 0) (s.character.x + DX.getD a 0) :=
  of_decide_eq_true (List.mem_filter.mp ha).2

lemma lt_four_of_mem_legal {s : MazeState} {a : Nat}
    (ha : a ∈ s.legal_actions) : a < 4 :=
  List.mem_range.mp (List.mem_filter.mp ha).1

-- Advancing by a legal action keeps the character on the board.
lemma onBoard_advance (s : MazeState) (a : Nat) (ha : a ∈ s.legal_actions) :
    onBoard ((s.advance a).character) := by
  have h := inBounds_of_mem_legal ha
  unfold MazeState.advance onBoard
  simpa using h

lemma expandState_mem_onBoard (t : Nat) (s m : MazeState)
    (hm : m ∈ expandState t s) : onBoard m.character := by
  unfold expandState at hm
  obtain ⟨a, ha, rfl⟩ := List.mem_map.mp hm
  have h := onBoard_advance s a ha
  by_cases ht : t = 0 <;> simp [ht, MazeState.evaluate_score] <;> exact h

lemma expandState_length (t : Nat) (s : MazeState) :
    (expandState t s).length = s.legal_actions.length := by
  unfold expandState
  simp

lemma pushList_elems (h : BinaryHeap) (l : List MazeState) :
    (h.pushList l).elems = l.reverse ++ h.elems := by
  induction l generalizing h with
  | nil => rfl
  | cons x xs ih =>
    show (BinaryHeap.pushList ⟨x :: h.elems⟩ xs).elems = _
    rw [ih]
    simp

lemma heapMax_mem (m : MazeState) (l : List MazeState) :
    heapMax m l ∈ m :: l := by
  induction l generalizing m with
  | nil => simp [heapMax]
  | cons s rest ih =>
    have h := ih (if MazeState.cmp m s = Ordering.lt then s else m)
    rw [heapMax]
    rcases List.mem_cons.mp h with h' | h'
    · rw [h']
      split <;> simp
    · simp [h']

lemma pop_of_ne_nil (h : BinaryHeap) (hne : h.elems ≠ []) :
    ∃ p, h.pop = some p := by
  unfold BinaryHeap.pop
  match hel : h.elems with
  | [] => exact absurd hel hne
  | s :: rest => exact ⟨_, rfl⟩

lemma pop_some_spec {h : BinaryHeap} {m : MazeState} {h' : BinaryHeap}
    (hp : h.pop = some (m, h')) :
    m ∈ h.elems ∧ h'.elems ⊆ h.elems ∧
      h'.elems.length = h.elems.length - 1 := by
  unfold BinaryHeap.pop at hp
  match hel : h.elems with
  | [] => rw [hel] at hp; exact absurd hp (by simp)
  | s :: rest =>
    rw [hel] at hp
    simp only [Option.some.injEq, Prod.mk.injEq] at hp
    obtain ⟨rfl, rfl⟩ := hp
    refine ⟨hel ▸ heapMax_mem s rest, ?_, ?_⟩
    · exact List.erase_subset (heapMax s rest) (s :: rest)
    · exact List.length_erase_of_mem (heapMax_mem s rest)

-- Everything the inner width loop puts in the next-level heap sits on
-- the board, provided the current frontier does.
lemma beamLevelTrace_onBoard (t w : Nat) (now next : BinaryHeap)
    (hnow : ∀ m ∈ now.elems, onBoard m.character)
    (hnext : ∀ m ∈ next.elems, onBoard m.character) :
    ∀ m ∈ (beamLevelTrace t w now next).1.elems, onBoard m.character := by
  induction w generalizing now next with
  | zero => exact hnext
  | succ w ih =>
    cases hp : now.pop with
    | none =>
      simp only [beamLevelTrace, hp]
      exact hnext
    | some p =>
      obtain ⟨ns, rest⟩ := p
      have hspec := pop_some_spec hp
      simp only [beamLevelTrace, hp]
      apply ih
      · exact fun m hm => hnow m (hspec.2.1 hm)
      · intro m hm
        rw [pushList_elems] at hm
        rcases List.mem_append.mp hm with hx | hx
        · exact expandState_mem_onBoard t ns m (List.mem_reverse.mp hx)
        · exact hnext m hx

-- The inner loop never discards states it has pushed into next_beam.
lemma beamLevelTrace_suffix (t w : Nat) (now next : BinaryHeap) :
    ∃ l, (beamLevelTrace t w now next).1.elems = l ++ next.elems := by
  induction w generalizing now next with
  | zero => exact ⟨[], rfl⟩
  | succ w ih =>
    cases hp : now.pop with
    | none =>
      simp only [beamLevelTrace, hp]
      exact ⟨[], rfl⟩
    | some p =>
      obtain ⟨ns, rest⟩ := p
      simp only [beamLevelTrace, hp]
      obtain ⟨l, hl⟩ := ih rest (next.pushList (expandState t ns))
      rw [pushList_elems] at hl
      exact ⟨l ++ (expandState t ns).reverse, by rw [hl]; simp⟩

-- With a non-empty on-board frontier and width at least 1, the level
-- loop produces a next-level heap with at least two entries (the first
-- popped state alone contributes its at-least-two successors).
lemma beamLevelTrace_two_le (t w : Nat) (now : BinaryHeap)
    (hw : 1 ≤ w) (hne : now.elems ≠ [])
    (hnow : ∀ m ∈ now.elems, onBoard m.character) :
    2 ≤ (beamLevelTrace t w now (⟨[]⟩ : BinaryHeap)).1.elems.length := by
  obtain ⟨w', rfl⟩ : ∃ w', w = w' + 1 := ⟨w - 1, by omega⟩
  obtain ⟨p, hp⟩ := pop_of_ne_nil now hne
  obtain ⟨ns, rest⟩ := p
  have hspec := pop_some_spec hp
  simp only [beamLevelTrace, hp]
  obtain ⟨l, hl⟩ :=
    beamLevelTrace_suffix t w' rest
      (BinaryHeap.pushList ⟨[]⟩ (expandState t ns))
  rw [hl, pushList_elems]
  have h2 : 2 ≤ (expandState t ns).length := by
    rw [expandState_length]
    exact legal_actions_two_le ns (hnow ns hspec.1)
  simp
  omega

-- Under the C3 precondition the depth loop never meets an empty heap at
-- its pop/unwrap site.
lemma beamRecTrace_isSome (d : Nat) (w t : Nat) (now : BinaryHeap)
    (best : MazeState) (hw : 1 ≤ w) (hne : now.elems ≠ [])
    (hnow : ∀ m ∈ now.elems, onBoard m.character) :
    ((beamRecTrace d w t now best).1).isSome := by
  induction d generalizing t now best with
  | zero => simp [beamRecTrace]
  | succ d ih =>
    have h2 := beamLevelTrace_two_le t w now hw hne hnow
    have hob := beamLevelTrace_onBoard t w now ⟨[]⟩ hnow (by simp)
    have hlne : (beamLevelTrace t w now ⟨[]⟩).1.elems ≠ [] := by
      intro hx
      rw [hx] at h2
      simp at h2
    obtain ⟨p, hp⟩ := pop_of_ne_nil _ hlne
    obtain ⟨b, rest⟩ := p
    have hspec := pop_some_spec hp
    simp only [beamRecTrace, hp]
    split
    · simp
    · simp only
      apply ih
      · have hlen := hspec.2.2
        intro hnil
        rw [hnil] at hlen
        simp at hlen
        omega
      · exact fun m hm => hob m (hspec.2.1 hm)

/-- C3: for every input state whose character lies on the 30×30 board and
every beam width at least 1 and depth at least 1, beam_search_action
never panics: the pop().unwrap() on the next-level frontier (modelled by
the Option result, where none marks the panic) always succeeds, because
on this board a frontier of on-board states always regenerates at least
two successors per level, so the loop always has a best answer to
return. -/
theorem beam_search_action_never_panics (s : MazeState) (w d : Nat)
    (hb : onBoard s.character) (hw : 1 ≤ w) (hd : 1 ≤ d) :
    ∃ a : Nat, beam_search_action s w d = some a := by
  have hsome := beamRecTrace_isSome d w 0 ⟨[s]⟩ s hw (by simp)
    (by intro m hm; simp at hm; rw [hm]; exact hb)
  obtain ⟨b, hbm⟩ := Option.isSome_iff_exists.mp hsome
  exact ⟨usizeOfInt b.first_action, by unfold beam_search_action; rw [hbm]; rfl⟩

/-- C3 witness: the precondition holds at cs with width 1 and depth 1 and
the theorem produces the returned action there. -/
theorem beam_search_action_never_panics_witness :
    onBoard cs.character ∧ 1 ≤ 1 ∧
      ∃ a : Nat, beam_search_action cs 1 1 = some a :=
  ⟨by decide, le_refl 1,
    beam_search_action_never_panics cs 1 1 (by decide) (le_refl 1) (le_refl 1)⟩

/-- C1: the claim says a pop-maximum on beam_search_action's frontier
returns an entry whose evaluated score is greatest and that ScoredState
comparison is decided by evaluated scores alone.  The code instead
derives Ord, which compares the points array first: with the frontier
holding exactly the two successors of cs, pop returns cS2 (evaluated
score 0) while cS0 (evaluated score 5) stays behind, and the derived
comparison orders cS2 above cS0 against the evaluated-score order. -/
theorem pop_is_not_by_evaluated_score :
    ((⟨[]⟩ : BinaryHeap).push cS0 |>.push cS2).pop = some (cS2, ⟨[cS0]⟩) ∧
    cS2.evaluated_score = 0 ∧ cS0.evaluated_score = 5 ∧
    MazeState.cmp cS2 cS0 = Ordering.gt ∧
    compare cS2.evaluated_score cS0.evaluated_score = Ordering.lt := by
  decide

/-- C2: the claim says level t expands exactly the min(W, frontier size)
highest-evaluated-score entries of the frontier produced by the previous
level.  Running beam_search_action on cs with width 2 and depth 2: the
level-0 loop produces the two-element frontier {cS2, cS0}, so with
W = 2 both entries should be expanded at level 1; but the code pops the
heap maximum (by derived Ord) into best_state after level 0, removing it
from the frontier for good, so level 1 expands only [cS0] — and the
state it fails to expand, cS2, is the one the derived order ranks
highest despite having the LOWER evaluated score. -/
theorem beam_level_expands_wrong_set :
    (beamLevelTrace 0 2 ⟨[cs]⟩ ⟨[]⟩).1.elems = [cS2, cS0] ∧
    cS0.evaluated_score = 5 ∧ cS2.evaluated_score = 0 ∧ cS2 ≠ cS0 ∧
    beam_search_expanded cs 2 2 = [[cs], [cS0]] := by
  decide

lemma succScore_def (s : MazeState) (a : Nat) :
    ((s.advance a).evaluate_score).evaluated_score = succScore s a := rfl

-- If nothing in the remaining action list beats the running best score,
-- the greedy loop keeps the running best action.
lemma greedyLoop_no_improve (s : MazeState) :
    ∀ (l : List Nat) (bs ba : Int),
      (∀ a ∈ l, (succScore s a : Int) ≤ bs) →
      greedyLoop s l bs ba = ba := by
  intro l
  induction l with
  | nil => intro bs ba _; rfl
  | cons action rest ih =>
    intro bs ba hall
    have hhd : (succScore s action : Int) ≤ bs :=
      hall action (List.mem_cons_self action rest)
    rw [greedyLoop, if_neg (by exact not_lt.mpr hhd)]
    exact ih bs ba fun a ha => hall a (List.mem_cons_of_mem action ha)

-- If some remaining action beats the running best score, the loop ends
-- on the first action of the list attaining the list's maximal
-- successor score (the list is strictly increasing, as legal_actions
-- is).
lemma greedyLoop_first_argmax (s : MazeState) :
    ∀ (l : List Nat), List.Pairwise (· < ·) l →
      ∀ (bs ba : Int), (∃ a ∈ l, bs < (succScore s a : Int)) →
      ∃ n, n ∈ l ∧ greedyLoop s l bs ba = (n : Int) ∧
        bs < (succScore s n : Int) ∧
        (∀ a ∈ l, succScore s a ≤ succScore s n) ∧
        (∀ a ∈ l, succScore s a = succScore s n → n ≤ a) := by
  intro l
  induction l with
  | nil => intro _ bs ba h; simp at h
  | cons action rest ih =>
    intro hpw bs ba hex
    have hhd := List.pairwise_cons.mp hpw
    by_cases hc : bs < (succScore s action : Int)
    · rw [greedyLoop, succScore_def, if_pos hc]
      by_cases hr : ∃ b ∈ rest, (succScore s action : Int) < (succScore s b : Int)
      · obtain ⟨n, hn, hloop, hlt, hmax, hfirst⟩ :=
          ih hhd.2 (succScore s action : Int) (action : Int) hr
        refine ⟨n, List.mem_cons_of_mem action hn, hloop, hc.trans hlt, ?_, ?_⟩
        · intro a ha
          rcases List.mem_cons.mp ha with rfl | ha'
          · exact le_of_lt (by exact_mod_cast hlt)
          · exact hmax a ha'
        · intro a ha heq
          rcases List.mem_cons.mp ha with rfl | ha'
          · exact absurd (by exact_mod_cast heq) (ne_of_lt hlt)
          · exact hfirst a ha' heq
      · push_neg at hr
        have hloop := greedyLoop_no_improve s rest
          (succScore s action : Int) (action : Int) hr
        refine ⟨action, List.mem_cons_self action rest, hloop, hc, ?_, ?_⟩
        · intro a ha
          rcases List.mem_cons.mp ha with rfl | ha'
          · exact le_refl _
          · exact_mod_cast hr a ha'
        · intro a ha _
          rcases List.mem_cons.mp ha with rfl | ha'
          · exact le_refl _
          · exact le_of_lt (hhd.1 a ha')
    · rw [greedyLoop, succScore_def, if_neg hc]
      have hex' : ∃ a ∈ rest, bs < (succScore s a : Int) := by
        obtain ⟨a, ha, hlt⟩ := hex
        rcases List.mem_cons.mp ha with rfl | ha'
        · exact absurd hlt hc
        · exact ⟨a, ha', hlt⟩
      obtain ⟨n, hn, hloop, hlt, hmax, hfirst⟩ := ih hhd.2 bs ba hex'
      refine ⟨n, List.mem_cons_of_mem action hn, hloop, hlt, ?_, ?_⟩
      · intro a ha
        rcases List.mem_cons.mp ha with rfl | ha'
        · have : (succScore s a : Int) ≤ bs := not_lt.mp hc
          exact_mod_cast this.trans (le_of_lt hlt)
        · exact hmax a ha'
      · intro a ha heq
        rcases List.mem_cons.mp ha with rfl | ha'
        · exact absurd (by exact_mod_cast heq ▸ hlt) (not_lt.mp hc).not_lt
        · exact hfirst a ha' heq

lemma legal_actions_pairwise (s : MazeState) :
    List.Pairwise (· < ·) s.legal_actions :=
  List.Pairwise.filter _ (List.pairwise_lt_range 4)

lemma usizeOfInt_small (n : Nat) (h : n < 4) : usizeOfInt (n : Int) = n := by
  unfold usizeOfInt
  rw [Int.emod_eq_of_lt (by positivity) (by exact_mod_cast by omega)]
  exact Int.toNat_natCast n

/-- C5: for every state with non-empty legal_actions, greedy_action
returns a legal action, its successor's evaluated score is maximal over
all legal actions, and on ties the first (smallest-index) action wins,
because the loop replaces its candidate only on a strictly greater
evaluated successor score. -/
theorem greedy_action_first_argmax (s : MazeState)
    (h : s.legal_actions ≠ []) :
    greedy_action s ∈ s.legal_actions ∧
    (∀ a ∈ s.legal_actions, succScore s a ≤ succScore s (greedy_action s)) ∧
    (∀ a ∈ s.legal_actions,
      succScore s a = succScore s (greedy_action s) → greedy_action s ≤ a) := by
  obtain ⟨a0, l0, hl0⟩ := List.exists_cons_of_ne_nil h
  have hex : ∃ a ∈ s.legal_actions, (-1 : Int) < (succScore s a : Int) := by
    refine ⟨a0, by rw [hl0]; exact List.mem_cons_self a0 l0, ?_⟩
    have : (0 : Int) ≤ (succScore s a0 : Int) := Int.natCast_nonneg _
    omega
  obtain ⟨n, hn, hloop, _, hmax, hfirst⟩ :=
    greedyLoop_first_argmax s s.legal_actions (legal_actions_pairwise s)
      (-1) (-1) hex
  have hga : greedy_action s = n := by
    unfold greedy_action
    rw [hloop]
    exact usizeOfInt_small n (lt_four_of_mem_legal hn)
  rw [hga]
  exact ⟨hn, hmax, hfirst⟩

/-- C5 witness: cs has non-empty legal_actions and the theorem applies,
giving the membership conclusion there. -/
theorem greedy_action_first_argmax_witness :
    cs.legal_actions ≠ [] ∧ greedy_action cs ∈ cs.legal_actions :=
  ⟨by decide, (greedy_action_first_argmax cs (by decide)).1⟩

/-- C6: for every state with an on-board character and every legal
action, advance never decreases game_score, evaluate_score copies
game_score into evaluated_score, and hence the evaluated score of the
evaluated advanced state is at least the evaluated score of the
evaluated original state. -/
theorem evaluate_advance_monotone (s : MazeState) (a : Nat)
    (hb : onBoard s.character) (ha : a ∈ s.legal_actions) :
    s.game_score ≤ (s.advance a).game_score ∧
    ((s.advance a).evaluate_score).evaluated_score = (s.advance a).game_score ∧
    (s.evaluate_score).evaluated_score ≤
      ((s.advance a).evaluate_score).evaluated_score := by
  refine ⟨?_, rfl, ?_⟩ <;>
    · simp only [MazeState.advance, MazeState.evaluate_score]
      split <;> omega

/-- C6 witness: the hypotheses hold at cs with action 0 and the theorem
yields the evaluated-score inequality there. -/
theorem evaluate_advance_monotone_witness :
    onBoard cs.character ∧ 0 ∈ cs.legal_actions ∧
      (cs.evaluate_score).evaluated_score ≤
        ((cs.advance 0).evaluate_score).evaluated_score :=
  ⟨by decide, by decide,
    (evaluate_advance_monotone cs 0 (by decide) (by decide)).2.2⟩

-- Generic list facts about set and getD used for the frame lemmas.
lemma getD_set_self_lt {α : Type} (l : List α) (i : Nat) (v d : α)
    (h : i < l.length) : (l.set i v).getD i d = v := by
  induction l generalizing i with
  | nil => simp at h
  | cons x xs ih =>
    cases i with
    | zero => rfl
    | succ i => exact ih i (by simpa using h)

lemma set_eq_of_length_le {α : Type} (l : List α) (i : Nat) (v : α)
    (h : l.length ≤ i) : l.set i v = l := by
  induction l generalizing i with
  | nil => rfl
  | cons x xs ih =>
    cases i with
    | zero => simp at h
    | succ i => simp [ih i (by simpa using h)]

lemma getD_set_ne {α : Type} (l : List α) (i j : Nat) (v d : α)
    (h : i ≠ j) : (l.set i v).getD j d = l.getD j d := by
  induction l generalizing i j with
  | nil => rfl
  | cons x xs ih =>
    cases i with
    | zero =>
      cases j with
      | zero => exact absurd rfl h
      | succ j => rfl
    | succ i =>
      cases j with
      | zero => rfl
      | succ j => exact ih i j (by omega)

-- A cell of setCellN holds either the written value or its old value.
lemma getCellN_setCellN_cases (b : List (List Nat)) (y x i j : Nat)
    (v : Nat) :
    getCellN (setCellN b y x v) i j = v ∨
    getCellN (setCellN b y x v) i j = getCellN b i j := by
  unfold getCellN setCellN
  by_cases hy : y = i
  · subst hy
    by_cases hlen : y < b.length
    · rw [getD_set_self_lt _ _ _ _ hlen]
      by_cases hx : x = j
      · subst hx
        by_cases hrow : x < (b.getD y []).length
        · exact Or.inl (getD_set_self_lt _ _ _ _ hrow)
        · rw [set_eq_of_length_le _ _ _ (by omega)]
          exact Or.inr rfl
      · rw [getD_set_ne _ _ _ _ _ hx]
        exact Or.inr rfl
    · rw [set_eq_of_length_le _ _ _ (by omega)]
      exact Or.inr rfl
  · rw [getD_set_ne _ _ _ _ _ hy]
    exact Or.inr rfl

lemma getCellN_setCellN_self (b : List (List Nat)) (y x : Nat) (v : Nat)
    (hwf : boardWF b) (hy : y < H) (hx : x < W) :
    getCellN (setCellN b y x v) y x = v := by
  unfold getCellN setCellN
  have hlen : y < b.length := by rw [hwf.1]; exact hy
  rw [getD_set_self_lt _ _ _ _ hlen]
  have hrow : (b.getD y []).length = W := by
    apply hwf.2
    have : b.getD y [] = b[y] := by
      rw [List.getD_eq_getElem?_getD, List.getElem?_eq_getElem hlen]
      rfl
    rw [this]
    exact List.getElem_mem hlen
  exact getD_set_self_lt _ _ _ _ (by omega)

lemma getCellN_setCellN_ne (b : List (List Nat)) (y x i j : Nat) (v : Nat)
    (h : ¬(i = y ∧ j = x)) :
    getCellN (setCellN b y x v) i j = getCellN b i j := by
  unfold getCellN setCellN
  by_cases hy : y = i
  · subst hy
    have hx : x ≠ j := by omega
    by_cases hlen : y < b.length
    · rw [getD_set_self_lt _ _ _ _ hlen, getD_set_ne _ _ _ _ _ hx]
    · rw [set_eq_of_length_le _ _ _ (by omega)]
  · rw [getD_set_ne _ _ _ _ _ hy]

-- Per-step score accounting for MazeState.advance: since the collection
-- is guarded by point > 0, the increment always equals the destination
-- cell value.
lemma advance_game_score (s : MazeState) (a : Nat) :
    (s.advance a).game_score = s.game_score +
      getCell s.points (s.character.y + DY.getD a 0)
        (s.character.x + DX.getD a 0) := by
  unfold MazeState.advance
  dsimp only
  split <;> omega

-- Zero cells stay zero across one advance.
lemma advance_zero_cell (s : MazeState) (a : Nat) (i j : Nat)
    (h : getCellN s.points i j = 0) :
    getCellN (s.advance a).points i j = 0 := by
  unfold MazeState.advance
  dsimp only
  split
  · unfold setCell
    rcases getCellN_setCellN_cases s.points
      (s.character.y + DY.getD a 0).toNat
      (s.character.x + DX.getD a 0).toNat i j 0 with hc | hc
    · exact hc
    · rw [hc]; exact h
  · exact h

lemma advancePath_game_score (s : MazeState) :
    ∀ l : List Nat,
      (advancePath s l).game_score = s.game_score + collectedPath s l := by
  intro l
  induction l generalizing s with
  | nil => simp [advancePath, collectedPath]
  | cons a rest ih =>
    rw [advancePath, collectedPath, ih (s.advance a), advance_game_score]
    omega

lemma advancePath_zero_cell (s : MazeState) :
    ∀ (l : List Nat) (i j : Nat), getCellN s.points i j = 0 →
      getCellN (advancePath s l).points i j = 0 := by
  intro l
  induction l generalizing s with
  | nil => exact fun i j h => h
  | cons a rest ih =>
    intro i j h
    exact ih (s.advance a) i j (advance_zero_cell s a i j h)

/-- C7: for every well-formed state with an on-board character and every
legal action a, advance moves the character by exactly (DY[a], DX[a]),
increments turn by 1, zeroes the destination cell, adds the
destination's old value to game_score, and leaves every other cell
unchanged; moreover along any action path the game_score equals the
starting score plus the sum of the values collected at each step, and a
cell that is zero stays zero through any further advances. -/
theorem advance_frame_effect (s : MazeState) (a : Nat)
    (hwf : boardWF s.points) (hb : onBoard s.character)
    (ha : a ∈ s.legal_actions) :
    (s.advance a).character.y = s.character.y + DY.getD a 0 ∧
    (s.advance a).character.x = s.character.x + DX.getD a 0 ∧
    (s.advance a).turn = s.turn + 1 ∧
    getCellN (s.advance a).points ((s.advance a).character.y).toNat
      ((s.advance a).character.x).toNat = 0 ∧
    (s.advance a).game_score = s.game_score +
      getCell s.points (s.character.y + DY.getD a 0)
        (s.character.x + DX.getD a 0) ∧
    (∀ i j : Nat, i < H → j < W →
      ¬(i = ((s.advance a).character.y).toNat ∧
        j = ((s.advance a).character.x).toNat) →
      getCellN (s.advance a).points i j = getCellN s.points i j) ∧
    (∀ l : List Nat,
      (advancePath s l).game_score = s.game_score + collectedPath s l) ∧
    (∀ (l : List Nat) (i j : Nat), getCellN s.points i j = 0 →
      getCellN (advancePath s l).points i j = 0) := by
  have hib := inBounds_of_mem_legal ha
  refine ⟨rfl, rfl, rfl, ?_, advance_game_score s a, ?_,
    advancePath_game_score s, advancePath_zero_cell s⟩
  · show getCellN (s.advance a).points
      (s.character.y + DY.getD a 0).toNat
      (s.character.x + DX.getD a 0).toNat = 0
    unfold MazeState.advance
    dsimp only
    split
    · unfold setCell
      apply getCellN_setCellN_self _ _ _ _ hwf
      · unfold inBounds at hib
        unfold H at *
        omega
      · unfold inBounds at hib
        unfold W at *
        omega
    · next hnp =>
        unfold getCell at hnp
        omega
  · intro i j _ _ hne
    show getCellN (s.advance a).points i j = getCellN s.points i j
    unfold MazeState.advance at *
    dsimp only at hne ⊢
    split
    · exact getCellN_setCellN_ne _ _ _ _ _ _ hne
    · rfl

/-- C7 witness: the hypotheses hold at cs with action 0 and the theorem
yields the turn-increment conclusion there. -/
theorem advance_frame_effect_witness :
    boardWF cs.points ∧ onBoard cs.character ∧ 0 ∈ cs.legal_actions ∧
      (cs.advance 0).turn = cs.turn + 1 :=
  ⟨by decide, by decide, by decide,
    (advance_frame_effect cs 0 (by decide) (by decide) (by decide)).2.2.1⟩

/-- C9: for every state whose character is on the 30×30 board,
legal_actions returns exactly the actions a in 0..3 whose moved position
stays on the board, the list is never empty, and advancing by any legal
action keeps the character on the board. -/
theorem legal_actions_exact (s : MazeState) (hb : onBoard s.character) :
    (∀ a : Nat,
      a ∈ s.legal_actions ↔ a < 4 ∧ onBoard (movedPos s.character a)) ∧
    s.legal_actions ≠ [] ∧
    (∀ a ∈ s.legal_actions, onBoard ((s.advance a).character)) := by
  refine ⟨?_, legal_actions_ne_nil s hb, fun a ha => onBoard_advance s a ha⟩
  intro a
  constructor
  · intro ha
    exact ⟨lt_four_of_mem_legal ha, inBounds_of_mem_legal ha⟩
  · intro h
    exact mem_legal_of_inBounds s a h.1 h.2

/-- C9 witness: cs sits on the board and the theorem yields the
non-emptiness conclusion there. -/
theorem legal_actions_exact_witness :
    onBoard cs.character ∧ cs.legal_actions ≠ [] :=
  ⟨by decide, (legal_actions_exact cs (by decide)).2.1⟩

/-- C4: the claim says beam_search_action(state, 1, 1) and
greedy_action(state) agree whenever legal_actions is non-empty.  On cs
(two legal actions, only action 0 collects the 5) greedy_action returns
0, but beam_search_action 1 1 returns 2, because the derived Ord ranks
the non-collecting successor (whose points array still holds the 5)
above the collecting one. -/
theorem beam_one_one_disagrees_with_greedy :
    cs.legal_actions ≠ [] ∧
    beam_search_action cs 1 1 = some 2 ∧
    greedy_action cs = 0 ∧
    beam_search_action cs 1 1 ≠ some (greedy_action cs) := by
  decide

namespace AutoMaze

-- The accumulator pair of hillClimbAux keeps best = now.get_score.
lemma hillClimbAux_inv :
    ∀ (l : List Mut) (now : AutoMoveMazeState) (best : Nat),
      best = now.get_score →
      (hillClimbAux now best l).2 = (hillClimbAux now best l).1.get_score := by
  intro l
  induction l with
  | nil => intro now best h; exact h
  | cons m rest ih =>
    intro now best h
    rw [hillClimbAux]
    split
    · exact ih _ _ rfl
    · exact ih now best h

lemma hillClimbAux_best_le :
    ∀ (l : List Mut) (now : AutoMoveMazeState) (best : Nat),
      best ≤ (hillClimbAux now best l).2 := by
  intro l
  induction l with
  | nil => intro _ _; exact le_refl _
  | cons m rest ih =>
    intro now best
    rw [hillClimbAux]
    split
    · next hlt => exact le_of_lt (lt_of_lt_of_le hlt (ih _ _))
    · exact ih now best

lemma hillClimbAux_append :
    ∀ (l1 l2 : List Mut) (now : AutoMoveMazeState) (best : Nat),
      hillClimbAux now best (l1 ++ l2) =
        hillClimbAux (hillClimbAux now best l1).1
          (hillClimbAux now best l1).2 l2 := by
  intro l1
  induction l1 with
  | nil => intro l2 now best; rfl
  | cons m rest ih =>
    intro l2 now best
    rw [List.cons_append, hillClimbAux, hillClimbAux]
    split
    · exact ih l2 _ _
    · exact ih l2 now best

lemma le_foldr_max : ∀ (l : List Nat) (b : Nat), b ≤ l.foldr max b := by
  intro l
  induction l with
  | nil => intro b; exact le_refl b
  | cons x xs ih =>
    intro b
    exact le_trans (ih b) (le_max_right x _)

lemma foldr_max_lift : ∀ (l : List Nat) (a b : Nat), b ≤ a →
    l.foldr max a = max a (l.foldr max b) := by
  intro l
  induction l with
  | nil =>
    intro a b h
    simp [Nat.max_eq_left h]
  | cons x xs ih =>
    intro a b h
    simp only [List.foldr_cons]
    rw [ih a b h, ← max_assoc, max_comm x a, max_assoc]

-- The best score carried by the loop is the running maximum of the
-- initial score and the scores of all candidates generated so far.
lemma hillClimbAux_foldr_max :
    ∀ (l : List Mut) (now : AutoMoveMazeState) (best : Nat),
      (hillClimbAux now best l).2 =
        ((candidatesAux now best l).map AutoMoveMazeState.get_score).foldr
          max best := by
  intro l
  induction l with
  | nil => intro now best; rfl
  | cons m rest ih =>
    intro now best
    rw [hillClimbAux, candidatesAux]
    by_cases hc : best < (now.transition m.1 m.2.1 m.2.2).get_score
    · rw [if_pos hc, if_pos hc, ih]
      simp only [List.map_cons, List.foldr_cons]
      exact foldr_max_lift _ _ _ (le_of_lt hc)
    · rw [if_neg hc, if_neg hc, ih]
      simp only [List.map_cons, List.foldr_cons]
      exact (Nat.max_eq_right
        (le_trans (not_lt.mp hc) (le_foldr_max _ _))).symm

lemma candidatesAux_length :
    ∀ (l : List Mut) (now : AutoMoveMazeState) (best : Nat),
      (candidatesAux now best l).length = l.length := by
  intro l
  induction l with
  | nil => intro _ _; rfl
  | cons m rest ih =>
    intro now best
    rw [candidatesAux]
    split
    · simp [ih]
    · simp [ih]

/-- C8: hill_climb accepts a mutated candidate exactly when its full
playout score is strictly greater than the current best (appending one
more iteration keeps the previous state unless the new candidate's
get_score strictly exceeds its get_score); the returned state's
get_score is the maximum of the initial state's score and the scores of
all N generated candidates; and for the same oracle of random draws the
returned score is monotone non-decreasing in the iteration budget. -/
theorem hill_climb_spec (s0 : AutoMoveMazeState) (muts : List Mut) :
    (∀ m : Mut,
      hill_climb s0 (muts ++ [m]) =
        (let prev := hill_climb s0 muts
         let cand := prev.transition m.1 m.2.1 m.2.2
         if prev.get_score < cand.get_score then cand else prev)) ∧
    (candidates s0 muts).length = muts.length ∧
    (hill_climb s0 muts).get_score =
      ((candidates s0 muts).map AutoMoveMazeState.get_score).foldr max
        s0.get_score ∧
    (∀ n : Nat,
      (hill_climb s0 (muts.take n)).get_score ≤
        (hill_climb s0 muts).get_score) := by
  refine ⟨?_, candidatesAux_length muts s0 s0.get_score, ?_, ?_⟩
  · intro m
    simp only [hill_climb]
    rw [hillClimbAux_append, hillClimbAux]
    rw [hillClimbAux_inv muts s0 s0.get_score rfl]
    split
    · rfl
    · rfl
  · simp only [hill_climb]
    rw [← hillClimbAux_inv muts s0 s0.get_score rfl, hillClimbAux_foldr_max]
    rfl
  · intro n
    simp only [hill_climb]
    rw [← hillClimbAux_inv muts s0 s0.get_score rfl,
      ← hillClimbAux_inv (muts.take n) s0 s0.get_score rfl]
    conv_rhs => rw [← List.take_append_drop n muts]
    rw [hillClimbAux_append]
    exact hillClimbAux_best_le (muts.drop n) _ _

lemma getD_mem_of_lt {α : Type} (l : List α) (i : Nat) (d : α)
    (h : i < l.length) : l.getD i d ∈ l := by
  rw [List.getD_eq_getElem?_getD, List.getElem?_eq_getElem h]
  exact List.getElem_mem h

-- The move phase touches only the characters.
lemma move_player_points (s : AutoMoveMazeState) (id : Nat) :
    (s.move_player id).points = s.points := rfl

lemma move_player_game_score (s : AutoMoveMazeState) (id : Nat) :
    (s.move_player id).game_score = s.game_score := rfl

lemma movePhase_points (s : AutoMoveMazeState) :
    (movePhase s).points = s.points := by
  unfold movePhase
  generalize List.range CHARACTER_N = l
  induction l generalizing s with
  | nil => rfl
  | cons x xs ih => exact ih (s.move_player x)

lemma movePhase_game_score (s : AutoMoveMazeState) :
    (movePhase s).game_score = s.game_score := by
  unfold movePhase
  generalize List.range CHARACTER_N = l
  induction l generalizing s with
  | nil => rfl
  | cons x xs ih => exact ih (s.move_player x)

lemma movePlayerStep_inv (pts : List (List Nat)) (c : Coord)
    (acc : Int × Nat) (a : Nat) (h : stepInv c acc) :
    stepInv c (movePlayerStep pts c acc a) := by
  unfold movePlayerStep
  dsimp only
  split
  · split
    · next hin _ => exact ⟨hin, Int.natCast_nonneg _⟩
    · exact h
  · exact h

lemma movePlayerStep_R (pts : List (List Nat)) (c : Coord)
    (acc : Int × Nat) (a : Nat) (h : acc.1 < 0 ∨ stepInv c acc) :
    (movePlayerStep pts c acc a).1 < 0 ∨
      stepInv c (movePlayerStep pts c acc a) := by
  unfold movePlayerStep
  dsimp only
  split
  · split
    · next hin _ => exact Or.inr ⟨hin, Int.natCast_nonneg _⟩
    · exact h
  · exact h

lemma movePlayerStep_establish (pts : List (List Nat)) (c : Coord)
    (acc : Int × Nat) (a : Nat)
    (hin : inBounds (c.y + DY.getD a 0) (c.x + DX.getD a 0))
    (h : acc.1 < 0 ∨ stepInv c acc) :
    stepInv c (movePlayerStep pts c acc a) := by
  rcases h with hneg | hs
  · unfold movePlayerStep
    dsimp only
    rw [if_pos hin]
    split
    · exact ⟨hin, Int.natCast_nonneg _⟩
    · next hc =>
      exact absurd (lt_of_lt_of_le hneg (Int.natCast_nonneg _)) hc
  · exact movePlayerStep_inv pts c acc a hs

-- If some scanned action is in bounds, the scan ends in the invariant.
lemma foldl_movePlayerStep_inv (pts : List (List Nat)) (c : Coord) :
    ∀ (l : List Nat) (acc : Int × Nat),
      (acc.1 < 0 ∨ stepInv c acc) →
      ((∃ a ∈ l, inBounds (c.y + DY.getD a 0) (c.x + DX.getD a 0)) ∨
        stepInv c acc) →
      stepInv c (l.foldl (movePlayerStep pts c) acc) := by
  intro l
  induction l with
  | nil =>
    intro acc _ hex
    rcases hex with hex | hs
    · simp at hex
    · exact hs
  | cons a rest ih =>
    intro acc hR hex
    rw [List.foldl_cons]
    apply ih
    · exact movePlayerStep_R pts c acc a hR
    · rcases hex with hex | hs
      · obtain ⟨b, hb, hbin⟩ := hex
        rcases List.mem_cons.mp hb with rfl | hb'
        · exact Or.inr (movePlayerStep_establish pts c acc b hbin hR)
        · exact Or.inl ⟨b, hb', hbin⟩
      · exact Or.inr (movePlayerStep_inv pts c acc a hs)

-- One move_player call keeps every character on the board.
lemma move_player_onBoard (s : AutoMoveMazeState) (id : Nat)
    (hall : ∀ q ∈ s.characters, onBoard q) :
    ∀ q ∈ (s.move_player id).characters, onBoard q := by
  intro q hq
  simp only [AutoMoveMazeState.move_player] at hq
  rcases List.mem_or_eq_of_mem_set hq with h | rfl
  · exact hall q h
  · have hc : onBoard (s.characters.getD id ⟨0, 0⟩) := by
      by_cases hid : id < s.characters.length
      · exact hall _ (getD_mem_of_lt s.characters id ⟨0, 0⟩ hid)
      · rw [List.getD_eq_getElem?_getD, List.getElem?_eq_none (by omega)]
        decide
    have hex : ∃ a ∈ List.range 4,
        inBounds ((s.characters.getD id ⟨0, 0⟩).y + DY.getD a 0)
          ((s.characters.getD id ⟨0, 0⟩).x + DX.getD a 0) := by
      rcases inBounds_down_or_up _ hc with h | h
      · exact ⟨2, by decide, h⟩
      · exact ⟨3, by decide, h⟩
    have hinv := foldl_movePlayerStep_inv s.points
      (s.characters.getD id ⟨0, 0⟩) (List.range 4) (-100000000, 0)
      (Or.inl (by norm_num)) (Or.inl hex)
    exact hinv.1

lemma movePhase_onBoard (s : AutoMoveMazeState)
    (hall : ∀ q ∈ s.characters, onBoard q) :
    ∀ q ∈ (movePhase s).characters, onBoard q := by
  unfold movePhase
  generalize List.range CHARACTER_N = l
  induction l generalizing s with
  | nil => exact hall
  | cons x xs ih =>
    exact ih (s.move_player x) (move_player_onBoard s x hall)

-- setCell at an on-board position preserves the board shape.
lemma boardWF_setCellN (b : List (List Nat)) (hwf : boardWF b)
    (i j v : Nat) (hi : i < H) : boardWF (setCellN b i j v) := by
  constructor
  · rw [setCellN, List.length_set]
    exact hwf.1
  · intro r hr
    rcases List.mem_or_eq_of_mem_set hr with h | rfl
    · exact hwf.2 r h
    · rw [List.length_set]
      exact hwf.2 _ (getD_mem_of_lt b i [] (by rw [hwf.1]; exact hi))

lemma toNat_lt_H {z : Int} (h0 : 0 ≤ z) (hlt : z < (H : Int)) :
    z.toNat < H := by
  unfold H at *
  omega

lemma toNat_lt_W {z : Int} (h0 : 0 ≤ z) (hlt : z < (W : Int)) :
    z.toNat < W := by
  unfold W at *
  omega

-- Pointwise effect of setCell for on-board coordinates.
lemma getCell_setCell_onBoard (pts : List (List Nat)) (hwf : boardWF pts)
    (c q : Coord) (hc : onBoard c) (hq : onBoard q) (v : Nat) :
    getCell (setCell pts c.y c.x v) q.y q.x =
      if q = c then v else getCell pts q.y q.x := by
  unfold getCell setCell
  by_cases he : q = c
  · subst he
    rw [if_pos rfl]
    obtain ⟨h1, h2, h3, h4⟩ := hq
    exact getCellN_setCellN_self pts _ _ v hwf (toNat_lt_H h1 h2)
      (toNat_lt_W h3 h4)
  · rw [if_neg he]
    apply getCellN_setCellN_ne
    intro hand
    apply he
    obtain ⟨hc1, hc2, hc3, hc4⟩ := hc
    obtain ⟨hq1, hq2, hq3, hq4⟩ := hq
    have hy : q.y = c.y := by omega
    have hx : q.x = c.x := by omega
    cases q
    cases c
    simp only at hy hx
    rw [hy, hx]

-- The collection loop adds exactly the sum of the board values at the
-- distinct occupied cells: the first collector of a cell zeroes it, so
-- later characters on the same cell add nothing.
lemma collectLoop_score :
    ∀ (chars : List Coord) (pts : List (List Nat)) (sc : Nat),
      boardWF pts → (∀ c ∈ chars, onBoard c) →
      (collectLoop chars (pts, sc)).2 =
        sc + Finset.sum chars.toFinset (fun c => getCell pts c.y c.x) := by
  intro chars
  induction chars with
  | nil =>
    intro pts sc _ _
    simp [collectLoop]
  | cons c rest ih =>
    intro pts sc hwf hob
    have hc := hob c (List.mem_cons_self c rest)
    obtain ⟨h1, h2, -, -⟩ := hob c (List.mem_cons_self c rest)
    rw [collectLoop]
    rw [ih (setCell pts c.y c.x 0) (sc + getCell pts c.y c.x)
      (boardWF_setCellN pts hwf _ _ 0 (toNat_lt_H h1 h2))
      (fun q hq => hob q (List.mem_cons_of_mem c hq))]
    have hsum :
        Finset.sum rest.toFinset
            (fun q => getCell (setCell pts c.y c.x 0) q.y q.x) =
          Finset.sum rest.toFinset
            (fun q => if q = c then 0 else getCell pts q.y q.x) := by
      apply Finset.sum_congr rfl
      intro q hq
      exact getCell_setCell_onBoard pts hwf c q hc
        (hob q (List.mem_cons_of_mem c (List.mem_toFinset.mp hq))) 0
    rw [hsum, List.toFinset_cons]
    by_cases hmem : c ∈ rest.toFinset
    · rw [Finset.insert_eq_self.mpr hmem]
      have h5 :
          Finset.sum rest.toFinset
              (fun q => if q = c then 0 else getCell pts q.y q.x) =
            Finset.sum (rest.toFinset.erase c)
              (fun q => getCell pts q.y q.x) := by
        rw [← Finset.sum_erase_add rest.toFinset _ hmem]
        rw [if_pos rfl, Nat.add_zero]
        apply Finset.sum_congr rfl
        intro q hq
        rw [if_neg (Finset.ne_of_mem_erase hq)]
      rw [h5, ← Finset.sum_erase_add rest.toFinset _ hmem]
      omega
    · rw [Finset.sum_insert hmem]
      have h5 :
          Finset.sum rest.toFinset
              (fun q => if q = c then 0 else getCell pts q.y q.x) =
            Finset.sum rest.toFinset (fun q => getCell pts q.y q.x) := by
        apply Finset.sum_congr rfl
        intro q hq
        have hne : q ≠ c := fun he => hmem (he ▸ hq)
        rw [if_neg hne]
      rw [h5]
      omega

/-- C10: in AutoMoveMazeState::advance all characters move first (the
move phase leaves points and game_score untouched) and collection
happens afterwards, so game_score grows by exactly the sum of the board
values at the DISTINCT cells occupied after moving: a cell shared by
several characters is collected once, since the first collector zeroes
it before the others read it. -/
theorem auto_advance_collects_distinct (s : AutoMoveMazeState)
    (hlen : s.characters.length = CHARACTER_N)
    (hwf : boardWF s.points)
    (hob : ∀ c ∈ s.characters, onBoard c) :
    (movePhase s).points = s.points ∧
    (movePhase s).game_score = s.game_score ∧
    s.advance.game_score = s.game_score +
      Finset.sum (movePhase s).characters.toFinset
        (fun c => getCell s.points c.y c.x) := by
  refine ⟨movePhase_points s, movePhase_game_score s, ?_⟩
  show (collectLoop (movePhase s).characters
      ((movePhase s).points, (movePhase s).game_score)).2 = _
  rw [movePhase_points, movePhase_game_score]
  exact collectLoop_score (movePhase s).characters s.points s.game_score
    hwf (movePhase_onBoard s hob)

/-- C10 witness: the hypotheses hold at caut and the theorem yields the
collection equation there. -/
theorem auto_advance_collects_distinct_witness :
    caut.characters.length = CHARACTER_N ∧ boardWF caut.points ∧
      (∀ c ∈ caut.characters, onBoard c) ∧
      caut.advance.game_score = caut.game_score +
        Finset.sum (movePhase caut).characters.toFinset
          (fun c => getCell caut.points c.y c.x) :=
  ⟨by decide, by decide, by decide,
    (auto_advance_collects_distinct caut (by decide) (by decide)
      (by decide)).2.2⟩

end AutoMaze

end SearchAlgo
